import Mathlib

set_option maxRecDepth 8000

/-!
Shallow embedding of the trade evaluation engine in `src/Main.py`
(functions `get_biases`, `set_bias`, `get_item_value_with_bias`,
`evaluate_trade_logic`), together with theorems settling the frozen
claims about it.

Modelling conventions:
* The `items` table is a list of `ItemRecord` in rowid order; the `id`
  column is unused by the engine and omitted.  The SQL lookup
  `WHERE name = ? COLLATE NOCASE` folds ASCII letters only, exactly as
  Lean's `Char.toLower` does, so it is modelled by comparing the
  `Char.toLower`-folded character lists.
* The persisted `biases` setting is modelled by `StoredBiases`:
  `absent` (no row), `empty` (a stored empty string: `json.loads`
  rejects it, but Python's `if biases_str:` treats it as falsy),
  `table t` (a stored non-empty string that parses to the mapping
  `t`), `malformed` (a stored non-empty string `json.loads` rejects).
  Python dict order is preserved, so a bias table is an association
  list `List (String × ℚ)`.  A multiplier is a Python float: an exact
  rational whose value is the binary64 number the program holds (the
  default table stores the binary64 values of the literals 1.1 etc.).
* The program computes `round(base_value * multiplier)` on IEEE-754
  binary64 doubles: the int is converted to a double, multiplied in
  binary64 (round to nearest, ties to even), and `round` then takes
  the double to the nearest integer, ties to the even one.  `flQ`
  models the binary64 rounding (with unbounded exponent range: the
  overflow-to-infinity and subnormal corners of true binary64 are
  outside the modelled range, and unreachable from the catalog's
  64-bit values and ordinary multipliers), `pyFloatRound` the whole
  pipeline; both are integer arithmetic so concrete runs reduce in
  the kernel.  `pyRound`/`roundMul` and `pyRoundAway`/`roundMulAway`
  state the two exact-product rounding rules the spec enumerates;
  the program follows neither (see the C4 counterexample).
  Exceptions (`json.loads` failures) become `Except.error`.
* Side A of the spec is the code's `your_items`, side B its
  `their_items`; `difference` is the code's `diff = their - your`.
-/

structure ItemRecord where
  name : String
  value : Int
  demand : String
deriving DecidableEq, Repr

abbrev Catalog := List ItemRecord

/-- Case-insensitive (ASCII, as SQLite NOCASE) name equality.
`Char.toLower` folds exactly the ASCII letters `A`-`Z`, as NOCASE
does; the comparison is on the underlying character lists. -/
def nocaseEq (a b : String) : Bool :=
  a.data.map Char.toLower == b.data.map Char.toLower

/-- `SELECT * FROM items WHERE name = ? COLLATE NOCASE` followed by
`fetchone`: the first record, in rowid order, whose name matches the
query up to ASCII case. -/
def findByNameNocase (cat : Catalog) (name : String) : Option ItemRecord :=
  cat.find? (fun r => nocaseEq r.name name)

abbrev BiasTable := List (String × ℚ)

/-- Python `dict.get` on the bias mapping. -/
def biasLookup (t : BiasTable) (tag : String) : Option ℚ :=
  (t.find? (fun p => p.1 == tag)).map Prod.snd

/-- The `default_biases` dict of `get_biases`:
high 1.1, normal 1.0, low 0.9, terrible 0.8, rising 1.2, ok 1.0.
Each entry is the exact rational value of the binary64 double the
Python literal denotes (1.1 is 2476979795053773 / 2^51, 0.9 is
8106479329266893 / 2^53, 0.8 is 3602879701896397 / 2^52, 1.2 is
5404319552844595 / 2^52, 1.0 is exact); `json.dumps` writes the
shortest repr and `json.loads` reads back the same double, so the
persisted defaults hold exactly these values. -/
def defaultBiases : BiasTable :=
  [("high", mkRat 2476979795053773 2251799813685248),
   ("normal", 1),
   ("low", mkRat 8106479329266893 9007199254740992),
   ("terrible", mkRat 3602879701896397 4503599627370496),
   ("rising", mkRat 5404319552844595 4503599627370496),
   ("ok", 1)]

/-- The persisted `biases` row of the `settings` table: no row at all
(`absent`); a stored empty string (`empty`) -- unparseable, but falsy
to Python's `if biases_str:` test; a stored non-empty string that
parses to the mapping `t` (`table t`); or a stored non-empty string
that `json.loads` rejects (`malformed`). -/
inductive StoredBiases where
  | absent
  | empty
  | table (t : BiasTable)
  | malformed
deriving DecidableEq, Repr

/-- `get_biases`: the code tests `if biases_str:`, so only a stored
NON-EMPTY string is parsed (raising if it is malformed); an absent row
and a stored empty string both take the default branch, which persists
the default table and returns it.  The returned pair is
(mapping, settings state after the call). -/
def getBiases : StoredBiases → Except String (BiasTable × StoredBiases)
  | .absent => .ok (defaultBiases, .table defaultBiases)
  | .empty => .ok (defaultBiases, .table defaultBiases)
  | .table t => .ok (t, .table t)
  | .malformed => .error "json.loads: malformed biases setting"

/-- Python dict assignment `biases[tag] = multiplier`: replace the
entry if the key exists, else append it. -/
def dictInsert (t : BiasTable) (tag : String) (m : ℚ) : BiasTable :=
  match t with
  | [] => [(tag, m)]
  | (k, v) :: rest =>
      if k == tag then (k, m) :: rest else (k, v) :: dictInsert rest tag m

/-- `set_bias`: read the current table via `get_biases`, update the
entry, persist the whole table. -/
def setBias (tag : String) (m : ℚ) (s : StoredBiases) : Except String StoredBiases :=
  match getBiases s with
  | .error e => .error e
  | .ok (t, _) => .ok (.table (dictInsert t tag m))

/-- Round to nearest, ties to the even integer, on ℚ (the rule of
Python's `round` applied to an exact value). -/
def pyRound (q : ℚ) : Int :=
  if Int.fract q < 1/2 then ⌊q⌋
  else if 1/2 < Int.fract q then ⌊q⌋ + 1
  else if ⌊q⌋ % 2 = 0 then ⌊q⌋ else ⌊q⌋ + 1

/-- Round to nearest, ties away from zero, on ℚ: the other rounding
rule the spec enumerates as an allowed reading of `round`. -/
def pyRoundAway (q : ℚ) : Int :=
  if Int.fract q < 1/2 then ⌊q⌋
  else if 1/2 < Int.fract q then ⌊q⌋ + 1
  else if 0 ≤ ⌊q⌋ then ⌊q⌋ + 1 else ⌊q⌋

/-- Round-half-to-even of the fraction `N / D` (for `D > 0`), by
integer arithmetic: the floor `f = N fdiv D`, then a comparison of
twice the remainder against the denominator.
`pyRound_intCast_div` proves it equal to `pyRound` of the fraction. -/
def roundHalfEvenFrac (N D : Int) : Int :=
  let f : Int := N.fdiv D
  if 2 * (N - D * f) < D then f
  else if D < 2 * (N - D * f) then f + 1
  else if f % 2 = 0 then f else f + 1

/-- Round-half-away-from-zero of the fraction `N / D` (for `D > 0`),
by integer arithmetic (at a tie the value is `f + 1/2`, so away from
zero is up for `0 ≤ f` and down otherwise).
`pyRoundAway_intCast_div` proves it equal to `pyRoundAway`. -/
def roundHalfAwayFrac (N D : Int) : Int :=
  let f : Int := N.fdiv D
  if 2 * (N - D * f) < D then f
  else if D < 2 * (N - D * f) then f + 1
  else if 0 ≤ f then f + 1 else f

/-- Round-half-to-even of the EXACT rational product `x * m` (the
first rounding rule the spec enumerates for `round(b * m)`); see
`roundMul_eq_pyRound`. -/
def roundMul (x : Int) (m : ℚ) : Int :=
  roundHalfEvenFrac (x * m.num) (m.den : Int)

/-- Round-half-away-from-zero of the EXACT rational product `x * m`
(the second rule the spec enumerates); see
`roundMulAway_eq_pyRoundAway`. -/
def roundMulAway (x : Int) (m : ℚ) : Int :=
  roundHalfAwayFrac (x * m.num) (m.den : Int)

/-- Floor of log2, computed structurally (the fuel only bounds the
recursion: the loop stops at `n <= 1`, so `log2Aux fuel n` is
`Nat.log2 n` whenever `n < 2 ^ fuel`). -/
def log2Aux : Nat → Nat → Nat
  | 0, _ => 0
  | fuel + 1, n => if n ≤ 1 then 0 else log2Aux fuel (n / 2) + 1

/-- Floor of log2 for `n < 2 ^ 4200` -- far beyond every magnitude the
engine can meet (64-bit catalog values, binary64 multipliers and their
products stay below 2 ^ 1100). -/
def log2N (n : Nat) : Nat := log2Aux 4200 n

/-- Floor of log2 of the positive fraction `N / D`: from the integer
logs of `N` and `D` the true value is `log2N N - log2N D` or one less;
one scaled comparison decides (`ratLog2_spec`). -/
def ratLog2 (N D : Nat) : Int :=
  let e0 : Int := (log2N N : Int) - (log2N D : Int)
  if 0 ≤ e0 then
    (if D * 2 ^ e0.toNat ≤ N then e0 else e0 - 1)
  else
    (if D ≤ N * 2 ^ (-e0).toNat then e0 else e0 - 1)

/-- IEEE-754 binary64 rounding of a rational: round to nearest
representable, ties to even, with unbounded exponent range (no
overflow to infinity, no subnormal granularity -- corners unreachable
from the engine's 64-bit catalog values and ordinary multipliers).
For `q` with sign `s` and magnitude in `[2^e, 2^(e+1))`, the mantissa
is the half-to-even rounding of `|q| * 2^(52-e)` (an integer in
`[2^52, 2^53]`) and the result is `s * mantissa * 2^(e-52)`;
`flQ_spec` proves exactly this characterisation. -/
def flQ (q : ℚ) : ℚ :=
  if q.num = 0 then 0
  else
    let s : Int := if q.num < 0 then -1 else 1
    let N : Nat := q.num.natAbs
    let D : Nat := q.den
    let e : Int := ratLog2 N D
    if 52 ≤ e then
      mkRat (s * roundHalfEvenFrac (N : Int) ((D : Int) * 2 ^ (e - 52).toNat) *
        2 ^ (e - 52).toNat) 1
    else
      mkRat (s * roundHalfEvenFrac ((N : Int) * 2 ^ (52 - e).toNat) (D : Int))
        (2 ^ (52 - e).toNat)

/-- Python's `round(x * m)` for an int `x` and a float `m`: `x` is
converted to binary64 (exact below 2^53, else rounded), the binary64
product is formed (one more rounding), and `round` takes that double
-- an exact rational -- to the nearest integer, ties to even.
`pyFloatRound_eq` rewrites this as
`pyRound (flQ (flQ x * m))`; `pyFloatRound_cross_checks` pins the
values CPython computes at the tie-adjacent inputs. -/
def pyFloatRound (x : Int) (m : ℚ) : Int :=
  let xf : ℚ := flQ (mkRat x 1)
  let prod : ℚ := flQ (mkRat (xf.num * m.num) (xf.den * m.den))
  roundHalfEvenFrac prod.num (prod.den : Int)

/-- The dict returned by `get_item_value_with_bias` and, with the input
name prepended by `evaluate_trade_logic`, a per-item detail record.
`base` is `none` exactly when the not-found dict omits the key. -/
structure ItemValuation where
  name : String
  value : Int
  found : Bool
  base : Option Int
  demand : Option String
deriving DecidableEq, Repr

/-- `get_item_value_with_bias`: case-insensitive catalog lookup; if no
row, the not-found valuation with the settings untouched (the code
returns before ever reading the biases); otherwise load the biases
(which may initialize them, or raise on a malformed setting), take the
multiplier for the item's demand tag with default 1, and round the
product.  The pair is (valuation, settings state after the call). -/
def getItemValueWithBias (cat : Catalog) (name : String) (s : StoredBiases) :
    Except String (ItemValuation × StoredBiases) :=
  match findByNameNocase cat name with
  | none =>
      .ok ({ name := name, value := 0, found := false,
             base := none, demand := none }, s)
  | some r =>
      match getBiases s with
      | .error e => .error e
      | .ok (biases, s1) =>
          .ok ({ name := name,
                 value := pyFloatRound r.value ((biasLookup biases r.demand).getD 1),
                 found := true, base := some r.value,
                 demand := some r.demand }, s1)

/-- The result dict of `evaluate_trade_logic`. -/
structure TradeEvalResult where
  your_value : Int
  their_value : Int
  diff : Int
  verdict : String
  your_details : List ItemValuation
  their_details : List ItemValuation
  unfound : List String
  suggested_additional : Int
  suggested_giveback : Int
deriving DecidableEq, Repr

/-- Sum of the `value` fields, as accumulated by the per-side loop. -/
def sumValues (ds : List ItemValuation) : Int :=
  (ds.map (fun d => d.value)).sum

/-- The names appended to `unfound` by one side's loop, in order. -/
def unfoundNames (ds : List ItemValuation) : List String :=
  (ds.filter (fun d => !d.found)).map (fun d => d.name)

/-- `len([x for x in details if x.get('demand') == 'high'])`. -/
def countHigh (ds : List ItemValuation) : Nat :=
  (ds.filter (fun d => d.demand == some "high")).length

/-- The threshold verdict of lines 245-250. -/
def baseVerdict (diff : Int) : String :=
  if 1000 ≤ diff then "Accept"
  else if diff ≤ -1000 then "Decline"
  else "Fair / Consider demand"

/-- One side's loop: resolve each name in order, threading the settings
state, collecting the detail records; any raised exception aborts. -/
def resolveSide (cat : Catalog) : List String → StoredBiases →
    Except String (List ItemValuation × StoredBiases)
  | [], s => .ok ([], s)
  | n :: ns, s =>
      match getItemValueWithBias cat n s with
      | .error e => .error e
      | .ok (v, s1) =>
          match resolveSide cat ns s1 with
          | .error e => .error e
          | .ok (vs, s2) => .ok (v :: vs, s2)

/-- Lines 241-273 of `evaluate_trade_logic`: totals, difference,
verdict with the high-demand override, unfound names (side A's before
side B's) and the two suggestions, from the two sides' detail lists. -/
def mkResult (yd td : List ItemValuation) : TradeEvalResult where
  your_value := sumValues yd
  their_value := sumValues td
  diff := sumValues td - sumValues yd
  verdict :=
    if 2 ≤ (countHigh td : Int) - (countHigh yd : Int) ∧
        -800 ≤ sumValues td - sumValues yd then
      "Consider (their high-demand items)"
    else baseVerdict (sumValues td - sumValues yd)
  your_details := yd
  their_details := td
  unfound := unfoundNames yd ++ unfoundNames td
  suggested_additional :=
    if sumValues td < sumValues yd then
      max 0 (((sumValues yd - sumValues td).fdiv 100 + 1) * 100)
    else 0
  suggested_giveback :=
    if sumValues yd < sumValues td then
      max 0 (((sumValues td - sumValues yd).fdiv 100 + 1) * 100)
    else 0

/-- `evaluate_trade_logic`: resolve side A (`your_items`), then side B
(`their_items`), then aggregate. -/
def evaluateTradeLogic (cat : Catalog) (your_items their_items : List String)
    (s : StoredBiases) : Except String (TradeEvalResult × StoredBiases) :=
  match resolveSide cat your_items s with
  | .error e => .error e
  | .ok (yd, s1) =>
      match resolveSide cat their_items s1 with
      | .error e => .error e
      | .ok (td, s2) => .ok (mkResult yd td, s2)

/-! ### Derived notions used to state and prove the claims -/

/-- The mapping `get_biases` would return from state `s`, when it does
not raise: the effective bias table. -/
def effBiases : StoredBiases → Option BiasTable
  | .absent => some defaultBiases
  | .empty => some defaultBiases
  | .table t => some t
  | .malformed => none

/-- The settings state after a successful `get_biases`. -/
def stepState : StoredBiases → StoredBiases
  | .absent => .table defaultBiases
  | .empty => .table defaultBiases
  | .table t => .table t
  | .malformed => .malformed

/-- The valuation `get_item_value_with_bias` produces as a pure
function of the name, the catalog and the effective bias table. -/
def resolveWith (cat : Catalog) (t : BiasTable) (name : String) : ItemValuation :=
  match findByNameNocase cat name with
  | none =>
      { name := name, value := 0, found := false, base := none, demand := none }
  | some r =>
      { name := name,
        value := pyFloatRound r.value ((biasLookup t r.demand).getD 1),
        found := true, base := some r.value, demand := some r.demand }

lemma floor_intCast_div_eq_fdiv {n d : Int} (hd : 0 < d) :
    ⌊(n : ℚ) / (d : ℚ)⌋ = n.fdiv d := by
  obtain ⟨k, rfl⟩ : ∃ k : ℕ, d = (k : Int) := ⟨d.toNat, (Int.toNat_of_nonneg hd.le).symm⟩
  rw [Int.cast_natCast, Rat.floor_intCast_div_natCast]
  exact (Int.fdiv_eq_ediv _ hd.le).symm

lemma fract_intCast_div {n d : Int} (hd : 0 < d) :
    Int.fract ((n : ℚ) / (d : ℚ)) = ((n - d * n.fdiv d : Int) : ℚ) / (d : ℚ) := by
  simp only [Int.fract, floor_intCast_div_eq_fdiv hd]
  push_cast
  field_simp

lemma fract_intCast_div_lt_half {n d : Int} (hd : 0 < d) :
    Int.fract ((n : ℚ) / (d : ℚ)) < 1/2 ↔ 2 * (n - d * n.fdiv d) < d := by
  have hdq : (0 : ℚ) < (d : ℚ) := by exact_mod_cast hd
  rw [fract_intCast_div hd, div_lt_iff₀ hdq]
  constructor
  · intro h
    have h2 : ((2 * (n - d * n.fdiv d) : Int) : ℚ) < ((d : Int) : ℚ) := by
      push_cast at h ⊢
      linarith
    exact_mod_cast h2
  · intro h
    have h2 : ((2 * (n - d * n.fdiv d) : Int) : ℚ) < ((d : Int) : ℚ) := by
      exact_mod_cast h
    push_cast at h2 ⊢
    linarith

lemma half_lt_fract_intCast_div {n d : Int} (hd : 0 < d) :
    1/2 < Int.fract ((n : ℚ) / (d : ℚ)) ↔ d < 2 * (n - d * n.fdiv d) := by
  have hdq : (0 : ℚ) < (d : ℚ) := by exact_mod_cast hd
  rw [fract_intCast_div hd, lt_div_iff₀ hdq]
  constructor
  · intro h
    have h3 : ((d : Int) : ℚ) < ((2 * (n - d * n.fdiv d) : Int) : ℚ) := by
      push_cast at h ⊢
      linarith
    exact_mod_cast h3
  · intro h
    have h3 : ((d : Int) : ℚ) < ((2 * (n - d * n.fdiv d) : Int) : ℚ) := by
      exact_mod_cast h
    push_cast at h3 ⊢
    linarith

/-- The integer-arithmetic half-to-even rounding of a fraction is
`pyRound` of the fraction. -/
lemma pyRound_intCast_div {n d : Int} (hd : 0 < d) :
    pyRound ((n : ℚ) / (d : ℚ)) = roundHalfEvenFrac n d := by
  simp only [roundHalfEvenFrac]
  unfold pyRound
  rw [floor_intCast_div_eq_fdiv hd]
  by_cases hc1 : 2 * (n - d * n.fdiv d) < d
  · rw [if_pos hc1, if_pos ((fract_intCast_div_lt_half hd).mpr hc1)]
  · rw [if_neg hc1, if_neg (fun h => hc1 ((fract_intCast_div_lt_half hd).mp h))]
    by_cases hc2 : d < 2 * (n - d * n.fdiv d)
    · rw [if_pos hc2, if_pos ((half_lt_fract_intCast_div hd).mpr hc2)]
    · rw [if_neg hc2, if_neg (fun h => hc2 ((half_lt_fract_intCast_div hd).mp h))]

/-- The integer-arithmetic half-away-from-zero rounding of a fraction
is `pyRoundAway` of the fraction. -/
lemma pyRoundAway_intCast_div {n d : Int} (hd : 0 < d) :
    pyRoundAway ((n : ℚ) / (d : ℚ)) = roundHalfAwayFrac n d := by
  simp only [roundHalfAwayFrac]
  unfold pyRoundAway
  rw [floor_intCast_div_eq_fdiv hd]
  by_cases hc1 : 2 * (n - d * n.fdiv d) < d
  · rw [if_pos hc1, if_pos ((fract_intCast_div_lt_half hd).mpr hc1)]
  · rw [if_neg hc1, if_neg (fun h => hc1 ((fract_intCast_div_lt_half hd).mp h))]
    by_cases hc2 : d < 2 * (n - d * n.fdiv d)
    · rw [if_pos hc2, if_pos ((half_lt_fract_intCast_div hd).mpr hc2)]
    · rw [if_neg hc2, if_neg (fun h => hc2 ((half_lt_fract_intCast_div hd).mp h))]

lemma intCast_mul_eq_div (x : Int) (m : ℚ) :
    (x : ℚ) * m = ((x * m.num : Int) : ℚ) / ((m.den : Int) : ℚ) := by
  conv_lhs => rw [← Rat.num_div_den m]
  push_cast
  ring

/-- `roundMul` is round-half-to-even of the exact rational product. -/
lemma roundMul_eq_pyRound (x : Int) (m : ℚ) :
    roundMul x m = pyRound ((x : ℚ) * m) := by
  have hd : (0 : Int) < (m.den : Int) := by exact_mod_cast m.pos
  rw [intCast_mul_eq_div, pyRound_intCast_div hd]
  rfl

/-- `roundMulAway` is round-half-away-from-zero of the exact rational
product. -/
lemma roundMulAway_eq_pyRoundAway (x : Int) (m : ℚ) :
    roundMulAway x m = pyRoundAway ((x : ℚ) * m) := by
  have hd : (0 : Int) < (m.den : Int) := by exact_mod_cast m.pos
  rw [intCast_mul_eq_div, pyRoundAway_intCast_div hd]
  rfl

lemma mkRat_mul_eq (a b : ℚ) : mkRat (a.num * b.num) (a.den * b.den) = a * b := by
  rw [Rat.mkRat_eq_divInt, Rat.divInt_eq_div]
  conv_rhs => rw [← Rat.num_div_den a, ← Rat.num_div_den b]
  rw [div_mul_div_comm]
  push_cast
  ring

lemma roundHalfEvenFrac_num_den (q : ℚ) :
    roundHalfEvenFrac q.num (q.den : Int) = pyRound q := by
  have h := pyRound_intCast_div (n := q.num) (d := (q.den : Int))
    (by exact_mod_cast q.pos)
  rw [show (((q.den : Int)) : ℚ) = ((q.den : ℕ) : ℚ) by push_cast; ring,
    Rat.num_div_den] at h
  exact h.symm

/-- The engine's `pyFloatRound` is Python's `round(x * m)` on doubles:
the tie-to-even rounding of the binary64 product of the binary64 value
of `x` with `m`. -/
lemma pyFloatRound_eq (x : Int) (m : ℚ) :
    pyFloatRound x m = pyRound (flQ (flQ (x : ℚ) * m)) := by
  simp only [pyFloatRound]
  rw [Rat.mkRat_one, mkRat_mul_eq, roundHalfEvenFrac_num_den]

/-- The fuel-based log is the floor of log2 whenever the fuel covers
the input. -/
lemma log2Aux_spec : ∀ (fuel n : Nat), 0 < n → n < 2 ^ fuel →
    2 ^ (log2Aux fuel n) ≤ n ∧ n < 2 ^ (log2Aux fuel n + 1) := by
  intro fuel
  induction fuel with
  | zero =>
      intro n h1 h2
      simp only [pow_zero] at h2
      omega
  | succ fuel ih =>
      intro n h1 h2
      simp only [log2Aux]
      by_cases hn : n ≤ 1
      · have hne : n = 1 := by omega
        subst hne
        simp
      · rw [if_neg hn]
        have h1' : 0 < n / 2 := by omega
        have h2' : n / 2 < 2 ^ fuel := by
          have hp : n < 2 * 2 ^ fuel := by
            have := pow_succ (2 : ℕ) fuel
            omega
          omega
        obtain ⟨l, u⟩ := ih (n / 2) h1' h2'
        constructor
        · have := pow_succ (2 : ℕ) (log2Aux fuel (n / 2))
          omega
        · have := pow_succ (2 : ℕ) (log2Aux fuel (n / 2) + 1)
          omega

lemma zpow_natCast_le_div_iff (N D k : Nat) (hD : 0 < D) :
    (2:ℚ) ^ (k : Int) ≤ (N : ℚ) / (D : ℚ) ↔ D * 2 ^ k ≤ N := by
  have hDq : (0:ℚ) < (D:ℚ) := by exact_mod_cast hD
  rw [zpow_natCast, le_div_iff₀ hDq,
    show ((2:ℚ)^k * (D:ℚ)) = ((2^k * D : ℕ) : ℚ) by push_cast; ring,
    Nat.cast_le, Nat.mul_comm]

lemma zpow_neg_natCast_le_div_iff (N D k : Nat) (hD : 0 < D) :
    (2:ℚ) ^ (-(k : Int)) ≤ (N : ℚ) / (D : ℚ) ↔ D ≤ N * 2 ^ k := by
  have hDq : (0:ℚ) < (D:ℚ) := by exact_mod_cast hD
  have h2k : (0:ℚ) < (2:ℚ)^k := by positivity
  rw [zpow_neg, zpow_natCast, inv_eq_one_div, div_le_div_iff₀ h2k hDq,
    show (1:ℚ) * (D:ℚ) = ((D:ℕ):ℚ) by ring,
    show ((N:ℚ) * (2:ℚ)^k) = ((N * 2^k : ℕ) : ℚ) by push_cast; ring,
    Nat.cast_le]

lemma div_lt_zpow_bound (N D a b : Nat) (hD : 0 < D)
    (hNa : N < 2 ^ (a+1)) (hbD : 2 ^ b ≤ D) :
    (N : ℚ) / (D : ℚ) < (2:ℚ) ^ ((a : Int) + 1 - b) := by
  have hDq : (0:ℚ) < (D:ℚ) := by exact_mod_cast hD
  rw [show ((a:Int) + 1 - b) = ((a+1 : ℕ) : Int) - ((b:ℕ) : Int) by push_cast; ring,
    zpow_sub₀ (two_ne_zero), zpow_natCast, zpow_natCast,
    div_lt_div_iff₀ hDq (by positivity),
    show ((N:ℚ) * (2:ℚ)^b) = ((N * 2^b : ℕ):ℚ) by push_cast; ring,
    show ((2:ℚ)^(a+1) * (D:ℚ)) = ((2^(a+1) * D : ℕ):ℚ) by push_cast; ring,
    Nat.cast_lt]
  calc N * 2^b < 2^(a+1) * 2^b := by
        have h2b : 0 < 2^b := Nat.pos_pow_of_pos b (by norm_num)
        exact Nat.mul_lt_mul_of_lt_of_le hNa (le_refl _) h2b
    _ ≤ 2^(a+1) * D := Nat.mul_le_mul_left _ hbD

lemma zpow_lt_div_bound (N D a b : Nat) (hD : 0 < D)
    (haN : 2 ^ a ≤ N) (hDb : D < 2 ^ (b+1)) :
    (2:ℚ) ^ ((a : Int) - b - 1) < (N : ℚ) / (D : ℚ) := by
  have hDq : (0:ℚ) < (D:ℚ) := by exact_mod_cast hD
  rw [show ((a:Int) - b - 1) = ((a : ℕ) : Int) - ((b+1:ℕ) : Int) by push_cast; ring,
    zpow_sub₀ (two_ne_zero), zpow_natCast, zpow_natCast,
    div_lt_div_iff₀ (by positivity) hDq,
    show ((2:ℚ)^a * (D:ℚ)) = ((2^a * D : ℕ):ℚ) by push_cast; ring,
    show ((N:ℚ) * (2:ℚ)^(b+1)) = ((N * 2^(b+1) : ℕ):ℚ) by push_cast; ring,
    Nat.cast_lt]
  calc 2^a * D < 2^a * 2^(b+1) := by
        have h2a : 0 < 2^a := Nat.pos_pow_of_pos a (by norm_num)
        exact Nat.mul_lt_mul_of_le_of_lt (le_refl _) hDb h2a
    _ ≤ N * 2^(b+1) := Nat.mul_le_mul_right _ haN

/-- `ratLog2` is the floor of log2 of the fraction: the fraction lies
in `[2^e, 2^(e+1))`. -/
lemma ratLog2_spec (N D : Nat) (hN : 0 < N) (hD : 0 < D)
    (hN2 : N < 2 ^ 4200) (hD2 : D < 2 ^ 4200) :
    (2 : ℚ) ^ (ratLog2 N D) ≤ (N : ℚ) / (D : ℚ) ∧
    (N : ℚ) / (D : ℚ) < (2 : ℚ) ^ (ratLog2 N D + 1) := by
  obtain ⟨haL, haU⟩ := log2Aux_spec 4200 N hN hN2
  obtain ⟨hbL, hbU⟩ := log2Aux_spec 4200 D hD hD2
  simp only [ratLog2, log2N]
  set a := log2Aux 4200 N with ha
  set b := log2Aux 4200 D with hb
  by_cases h0 : (0 : Int) ≤ (a : Int) - (b : Int)
  · have hba : b ≤ a := by omega
    have htn : ((a : Int) - (b : Int)).toNat = a - b := by omega
    by_cases ht : D * 2 ^ ((a : Int) - (b : Int)).toNat ≤ N
    · rw [if_pos h0, if_pos ht]
      constructor
      · have := (zpow_natCast_le_div_iff N D ((a:Int) - b).toNat hD).mpr ht
        rwa [Int.toNat_of_nonneg h0] at this
      · have := div_lt_zpow_bound N D a b hD haU hbL
        rwa [show ((a:Int) + 1 - b) = ((a:Int) - b) + 1 by ring] at this
    · rw [if_pos h0, if_neg ht]
      constructor
      · have := zpow_lt_div_bound N D a b hD haL hbU
        rw [show ((a:Int) - b - 1) = ((a:Int) - b - 1) by ring] at this
        exact this.le
      · have hlt : ¬ ((2:ℚ) ^ (((a:Int) - b).toNat : Int) ≤ (N:ℚ)/(D:ℚ)) := by
          intro hcon
          exact ht ((zpow_natCast_le_div_iff N D ((a:Int) - b).toNat hD).mp hcon)
        rw [Int.toNat_of_nonneg h0] at hlt
        push_neg at hlt
        rwa [show ((a:Int) - b - 1 + 1) = ((a:Int) - b) by ring]
  · have hab : a < b := by omega
    have htn : (-((a : Int) - (b : Int))).toNat = b - a := by omega
    by_cases ht : D ≤ N * 2 ^ (-((a : Int) - (b : Int))).toNat
    · rw [if_neg h0, if_pos ht]
      constructor
      · have := (zpow_neg_natCast_le_div_iff N D (-((a:Int) - b)).toNat hD).mpr ht
        rwa [show (-(((-((a:Int) - b)).toNat : ℕ) : Int)) = (a:Int) - b by omega] at this
      · have := div_lt_zpow_bound N D a b hD haU hbL
        rwa [show ((a:Int) + 1 - b) = ((a:Int) - b) + 1 by ring] at this
    · rw [if_neg h0, if_neg ht]
      constructor
      · exact (zpow_lt_div_bound N D a b hD haL hbU).le
      · have hlt : ¬ ((2:ℚ) ^ (-(((-((a:Int) - b)).toNat : ℕ) : Int)) ≤ (N:ℚ)/(D:ℚ)) := by
          intro hcon
          exact ht ((zpow_neg_natCast_le_div_iff N D (-((a:Int) - b)).toNat hD).mp hcon)
        rw [show (-(((-((a:Int) - b)).toNat : ℕ) : Int)) = (a:Int) - b by omega] at hlt
        push_neg at hlt
        rwa [show ((a:Int) - b - 1 + 1) = ((a:Int) - b) by ring]

/-- `flQ` on a positive rational is textbook binary64
round-to-nearest-ties-to-even: for the exponent `e` with
`2^e ≤ q < 2^(e+1)`, it is the half-to-even rounding of the scaled
mantissa `q * 2^(52-e)` put back on the scale `2^(e-52)`.  (The
magnitude hypotheses cover every value the engine can meet by an
astronomical margin.) -/
lemma flQ_spec (q : ℚ) (h0 : 0 < q)
    (hN : q.num.natAbs < 2 ^ 4200) (hD : q.den < 2 ^ 4200) :
    ∃ e : Int, (2:ℚ) ^ e ≤ q ∧ q < (2:ℚ) ^ (e + 1) ∧
      flQ q = (pyRound (q * (2:ℚ) ^ (52 - e)) : ℚ) * (2:ℚ) ^ (e - 52) := by
  have hnum : 0 < q.num := Rat.num_pos.mpr h0
  have hNpos : 0 < q.num.natAbs := by omega
  have hDpos : 0 < q.den := q.pos
  have hcast : ((q.num.natAbs : ℕ) : ℚ) = ((q.num : ℤ) : ℚ) := by
    rw [Int.cast_natAbs, abs_of_nonneg]
    exact_mod_cast hnum.le
  have hqe : ((q.num.natAbs : ℕ) : ℚ) / ((q.den : ℕ) : ℚ) = q := by
    rw [hcast]
    exact Rat.num_div_den q
  obtain ⟨hL, hU⟩ := ratLog2_spec q.num.natAbs q.den hNpos hDpos hN hD
  rw [hqe] at hL hU
  refine ⟨ratLog2 q.num.natAbs q.den, hL, hU, ?_⟩
  have hne : ¬ q.num = 0 := hnum.ne'
  have hns : ¬ q.num < 0 := by omega
  simp only [flQ, if_neg hne, if_neg hns, one_mul]
  set e : Int := ratLog2 q.num.natAbs q.den with he
  by_cases hce : (52 : Int) ≤ e
  · have hk : ((e - 52).toNat : Int) = e - 52 := Int.toNat_of_nonneg (by omega)
    have hden : (0 : ℤ) < (q.den : Int) * 2 ^ (e - 52).toNat := by positivity
    rw [if_pos hce, Rat.mkRat_one]
    have harg : q * (2:ℚ) ^ (52 - e) =
        ((q.num.natAbs : Int) : ℚ) /
          (((q.den : Int) * 2 ^ (e - 52).toNat : ℤ) : ℚ) := by
      conv_lhs => rw [← hqe,
        show (52 : Int) - e = -(((e - 52).toNat : ℕ) : Int) by omega,
        zpow_neg, zpow_natCast]
      push_cast [Int.natAbs_of_nonneg hnum.le]
      have h2 : ((2:ℚ) ^ (e - 52).toNat) ≠ 0 := by positivity
      have hdq : ((q.den : ℕ) : ℚ) ≠ 0 := by
        exact_mod_cast hDpos.ne'
      rw [hcast]
      field_simp
    rw [harg, pyRound_intCast_div hden]
    have h52 : ((2:ℚ)) ^ (e - 52) = ((2:ℚ)) ^ ((e - 52).toNat) := by
      rw [← zpow_natCast, hk]
    rw [h52]
    push_cast
    ring
  · have hk : ((52 - e).toNat : Int) = 52 - e := Int.toNat_of_nonneg (by omega)
    have hden : (0 : ℤ) < (q.den : Int) := by exact_mod_cast hDpos
    rw [if_neg hce, Rat.mkRat_eq_divInt, Rat.divInt_eq_div]
    have harg : q * (2:ℚ) ^ (52 - e) =
        (((q.num.natAbs : Int) * 2 ^ (52 - e).toNat : ℤ) : ℚ) /
          ((q.den : Int) : ℚ) := by
      conv_lhs => rw [← hqe,
        show (52 : Int) - e = (((52 - e).toNat : ℕ) : Int) from hk.symm,
        zpow_natCast]
      push_cast [Int.natAbs_of_nonneg hnum.le]
      rw [hcast]
      ring
    rw [harg, pyRound_intCast_div hden]
    have h52 : ((2:ℚ)) ^ (e - 52) = (((2:ℚ)) ^ ((52 - e).toNat))⁻¹ := by
      rw [← zpow_natCast, ← zpow_neg]
      congr 1
      omega
    rw [h52]
    push_cast
    field_simp

lemma mkRat_neg_num (a : Int) (d : Nat) : mkRat (-a) d = -(mkRat a d) := by
  rw [Rat.mkRat_eq_divInt, Rat.mkRat_eq_divInt, Rat.neg_divInt]

/-- Binary64 rounding is odd: the sign is handled symmetrically, so
`flQ_spec` also describes negative values. -/
lemma flQ_neg (q : ℚ) : flQ (-q) = -flQ q := by
  by_cases h : q.num = 0
  · rw [Rat.num_eq_zero.mp h]
    simp [flQ]
  · have hn : (-q).num = -q.num := Rat.num_neg_eq_neg_num q
    have hd : (-q).den = q.den := Rat.den_neg_eq_den q
    simp only [flQ, hn, hd, Int.natAbs_neg, neg_eq_zero, if_neg h]
    have hs : (if -q.num < 0 then (-1 : Int) else 1) =
        -(if q.num < 0 then (-1 : Int) else 1) := by
      rcases lt_trichotomy q.num 0 with hlt | heq | hgt
      · rw [if_neg (by omega : ¬ -q.num < 0), if_pos hlt]
        norm_num
      · exact absurd heq h
      · rw [if_pos (by omega : -q.num < 0), if_neg (by omega : ¬ q.num < 0)]
    rw [hs]
    set e := ratLog2 q.num.natAbs q.den with he
    set sgn := (if q.num < 0 then (-1 : Int) else 1) with hsgn
    by_cases hce : (52 : Int) ≤ e
    · rw [if_pos hce, if_pos hce,
        show -sgn * roundHalfEvenFrac (q.num.natAbs : Int)
            ((q.den : Int) * 2 ^ (e - 52).toNat) * 2 ^ (e - 52).toNat =
          -(sgn * roundHalfEvenFrac (q.num.natAbs : Int)
            ((q.den : Int) * 2 ^ (e - 52).toNat) * 2 ^ (e - 52).toNat) by ring,
        mkRat_neg_num]
    · rw [if_neg hce, if_neg hce,
        show -sgn * roundHalfEvenFrac ((q.num.natAbs : Int) * 2 ^ (52 - e).toNat)
            (q.den : Int) =
          -(sgn * roundHalfEvenFrac ((q.num.natAbs : Int) * 2 ^ (52 - e).toNat)
            (q.den : Int)) by ring,
        mkRat_neg_num]

lemma getBiases_eq_of_effBiases {s : StoredBiases} {t : BiasTable}
    (h : effBiases s = some t) :
    getBiases s = .ok (t, stepState s) ∧ effBiases (stepState s) = some t := by
  cases s with
  | absent =>
      simp only [effBiases, Option.some.injEq] at h
      subst h; exact ⟨rfl, rfl⟩
  | empty =>
      simp only [effBiases, Option.some.injEq] at h
      subst h; exact ⟨rfl, rfl⟩
  | table t0 =>
      simp only [effBiases, Option.some.injEq] at h
      subst h; exact ⟨rfl, rfl⟩
  | malformed => simp [effBiases] at h

lemma getItemValueWithBias_eq_of_effBiases (cat : Catalog) (n : String)
    {s : StoredBiases} {t : BiasTable} (h : effBiases s = some t) :
    ∃ s1, getItemValueWithBias cat n s = .ok (resolveWith cat t n, s1) ∧
      effBiases s1 = some t := by
  unfold getItemValueWithBias resolveWith
  cases hf : findByNameNocase cat n with
  | none => exact ⟨s, rfl, h⟩
  | some r =>
      obtain ⟨h1, h2⟩ := getBiases_eq_of_effBiases h
      exact ⟨stepState s, by rw [h1], h2⟩

lemma resolveSide_eq_of_effBiases (cat : Catalog) (ns : List String)
    {s : StoredBiases} {t : BiasTable} (h : effBiases s = some t) :
    ∃ s1, resolveSide cat ns s = .ok (ns.map (resolveWith cat t), s1) ∧
      effBiases s1 = some t := by
  induction ns generalizing s with
  | nil => exact ⟨s, rfl, h⟩
  | cons n ns ih =>
      obtain ⟨s1, h1, h1e⟩ := getItemValueWithBias_eq_of_effBiases cat n h
      obtain ⟨s2, h2, h2e⟩ := ih h1e
      exact ⟨s2, by simp [resolveSide, h1, h2], h2e⟩

lemma evaluateTradeLogic_eq_of_effBiases (cat : Catalog)
    (yi ti : List String) {s : StoredBiases} {t : BiasTable}
    (h : effBiases s = some t) :
    ∃ s2, evaluateTradeLogic cat yi ti s =
        .ok (mkResult (yi.map (resolveWith cat t)) (ti.map (resolveWith cat t)), s2) ∧
      effBiases s2 = some t := by
  obtain ⟨s1, h1, h1e⟩ := resolveSide_eq_of_effBiases cat yi h
  obtain ⟨s2, h2, h2e⟩ := resolveSide_eq_of_effBiases cat ti h1e
  exact ⟨s2, by simp [evaluateTradeLogic, h1, h2], h2e⟩

/-- A successful evaluation is always `mkResult` of the two detail
lists produced by the loops, whatever the settings state was. -/
lemma evaluateTradeLogic_shape {cat : Catalog} {yi ti : List String}
    {s s2 : StoredBiases} {r : TradeEvalResult}
    (h : evaluateTradeLogic cat yi ti s = .ok (r, s2)) :
    ∃ yd td, r = mkResult yd td := by
  unfold evaluateTradeLogic at h
  split at h
  · exact absurd h (by simp)
  · split at h
    · exact absurd h (by simp)
    · simp only [Except.ok.injEq, Prod.mk.injEq] at h
      exact ⟨_, _, h.1.symm⟩

/-- From a persisted table the resolver never changes the settings
state: its result is the pure `resolveWith` of the current table. -/
lemma getItemValueWithBias_table (cat : Catalog) (n : String) (t : BiasTable) :
    getItemValueWithBias cat n (.table t) = .ok (resolveWith cat t n, .table t) := by
  unfold getItemValueWithBias resolveWith
  cases findByNameNocase cat n with
  | none => rfl
  | some r => rfl

lemma resolveSide_table (cat : Catalog) (t : BiasTable) (ns : List String) :
    resolveSide cat ns (.table t) =
      .ok (ns.map (resolveWith cat t), .table t) := by
  induction ns with
  | nil => rfl
  | cons n ns ih => simp [resolveSide, getItemValueWithBias_table, ih]

lemma evaluateTradeLogic_table (cat : Catalog) (yi ti : List String) (t : BiasTable) :
    evaluateTradeLogic cat yi ti (.table t) =
      .ok (mkResult (yi.map (resolveWith cat t)) (ti.map (resolveWith cat t)),
           .table t) := by
  simp [evaluateTradeLogic, resolveSide_table]

lemma resolveWith_name (cat : Catalog) (t : BiasTable) (n : String) :
    (resolveWith cat t n).name = n := by
  unfold resolveWith
  cases findByNameNocase cat n <;> rfl

lemma resolveWith_of_none {cat : Catalog} {n : String} (t : BiasTable)
    (h : findByNameNocase cat n = none) :
    resolveWith cat t n =
      { name := n, value := 0, found := false, base := none, demand := none } := by
  unfold resolveWith
  rw [h]

lemma resolveWith_found (cat : Catalog) (t : BiasTable) (n : String) :
    (resolveWith cat t n).found = (findByNameNocase cat n).isSome := by
  unfold resolveWith
  cases findByNameNocase cat n <;> rfl

lemma sumValues_append (a b : List ItemValuation) :
    sumValues (a ++ b) = sumValues a + sumValues b := by
  simp [sumValues]

lemma unfoundNames_map_resolveWith (cat : Catalog) (t : BiasTable) (ns : List String) :
    unfoundNames (ns.map (resolveWith cat t)) =
      ns.filter (fun n => (findByNameNocase cat n).isNone) := by
  induction ns with
  | nil => rfl
  | cons n ns ih =>
      simp only [List.map_cons, unfoundNames, List.filter_cons] at ih ⊢
      cases hf : findByNameNocase cat n with
      | none =>
          simp only [resolveWith_of_none t hf, Option.isNone_none]
          simpa using ih
      | some r =>
          have hfd : (resolveWith cat t n).found = true := by
            rw [resolveWith_found, hf]
            rfl
          simp only [hfd, Option.isNone_some]
          simpa using ih

lemma suggestionAux (a b : Int) (h : b < a) :
    max 0 (((a - b).fdiv 100 + 1) * 100) = ((a - b).fdiv 100 + 1) * 100 ∧
    ((a - b).fdiv 100 + 1) * 100 ≠ 0 := by
  have h0 : 0 ≤ (a - b).fdiv 100 := Int.fdiv_nonneg (by omega) (by norm_num)
  constructor
  · refine max_eq_right ?_
    have : 0 ≤ ((a - b).fdiv 100 + 1) := by omega
    positivity
  · have : 0 < ((a - b).fdiv 100 + 1) * 100 := by positivity
    omega

/-! ### Concrete data used to instantiate the claim theorems -/

/-- A small catalog (in the shape of the seeded `items` table) used to
instantiate the claim theorems on concrete inputs. -/
def demoCatalog : Catalog :=
  [ { name := "Alpha", value := 1000, demand := "normal" },
    { name := "Beta", value := 2500, demand := "normal" },
    { name := "HighOne", value := 0, demand := "high" },
    { name := "HighTwo", value := 0, demand := "high" },
    { name := "Odd", value := 7, demand := "weird" } ]

/-- Result of evaluating `["Alpha"]` against `["Beta"]` on the demo
catalog with the default biases persisted. -/
def demoAB : TradeEvalResult :=
  mkResult (["Alpha"].map (resolveWith demoCatalog defaultBiases))
           (["Beta"].map (resolveWith demoCatalog defaultBiases))

/-- The swapped evaluation: `["Beta"]` against `["Alpha"]`. -/
def demoBA : TradeEvalResult :=
  mkResult (["Beta"].map (resolveWith demoCatalog defaultBiases))
           (["Alpha"].map (resolveWith demoCatalog defaultBiases))

/-- Result of evaluating `[]` against two high-demand items. -/
def demoHigh : TradeEvalResult :=
  mkResult (([] : List String).map (resolveWith demoCatalog defaultBiases))
           (["HighOne", "HighTwo"].map (resolveWith demoCatalog defaultBiases))

/-- Result of an evaluation whose side A contains the unknown name
`"Ghost"`. -/
def demoGhost : TradeEvalResult :=
  mkResult (["Alpha", "Ghost"].map (resolveWith demoCatalog defaultBiases))
           (["Beta"].map (resolveWith demoCatalog defaultBiases))

/-! ### The claims -/

/-- C1: every successful evaluation has `diff` equal to
`their_value - your_value` (side B total minus side A total), and
whenever the high-demand override condition fails the verdict is the
base threshold classification: `Accept` when the difference is at
least 1000, `Decline` when it is at most -1000, and
`Fair / Consider demand` otherwise. -/
theorem c1_evaluate_diff_and_base_verdict (cat : Catalog)
    (yi ti : List String) (s s2 : StoredBiases) (r : TradeEvalResult)
    (hr : evaluateTradeLogic cat yi ti s = .ok (r, s2)) :
    r.diff = r.their_value - r.your_value ∧
    (¬ (2 ≤ (countHigh r.their_details : Int) - (countHigh r.your_details : Int) ∧
        -800 ≤ r.diff) →
      r.verdict = if 1000 ≤ r.diff then "Accept"
        else if r.diff ≤ -1000 then "Decline"
        else "Fair / Consider demand") := by
  obtain ⟨yd, td, rfl⟩ := evaluateTradeLogic_shape hr
  refine ⟨rfl, fun hno => ?_⟩
  simp only [mkResult] at hno ⊢
  rw [if_neg hno]
  rfl

/-- C1 witness: the theorem instantiated on the demo catalog with
`["Alpha"]` against `["Beta"]`. -/
theorem c1_witness :
    demoAB.diff = demoAB.their_value - demoAB.your_value ∧
    (¬ (2 ≤ (countHigh demoAB.their_details : Int) -
          (countHigh demoAB.your_details : Int) ∧ -800 ≤ demoAB.diff) →
      demoAB.verdict = if 1000 ≤ demoAB.diff then "Accept"
        else if demoAB.diff ≤ -1000 then "Decline"
        else "Fair / Consider demand") :=
  c1_evaluate_diff_and_base_verdict demoCatalog ["Alpha"] ["Beta"]
    (.table defaultBiases) (.table defaultBiases) demoAB rfl

/-- C2: in every successful evaluation in which side B's detail
records carry at least two more `high` demand tags than side A's and
the difference is at least -800, the final verdict is
`Consider (their high-demand items)`, whatever the base thresholds
would have said. -/
theorem c2_high_demand_override (cat : Catalog) (yi ti : List String)
    (s s2 : StoredBiases) (r : TradeEvalResult)
    (hr : evaluateTradeLogic cat yi ti s = .ok (r, s2))
    (hcount : 2 ≤ (countHigh r.their_details : Int) - (countHigh r.your_details : Int))
    (hdiff : -800 ≤ r.diff) :
    r.verdict = "Consider (their high-demand items)" := by
  obtain ⟨yd, td, rfl⟩ := evaluateTradeLogic_shape hr
  simp only [mkResult] at hcount hdiff ⊢
  rw [if_pos ⟨hcount, hdiff⟩]

/-- C2 witness: two zero-value high-demand items on side B trigger the
override even though the difference is 0 (base verdict would be
`Fair / Consider demand`). -/
theorem c2_witness : demoHigh.verdict = "Consider (their high-demand items)" :=
  c2_high_demand_override demoCatalog [] ["HighOne", "HighTwo"]
    (.table defaultBiases) (.table defaultBiases) demoHigh rfl
    (by decide) (by decide)

/-- C3: in every successful evaluation, when side A's total exceeds
side B's the additional suggestion is `((gap) div 100 + 1) * 100` and
the giveback suggestion is 0; symmetrically when side B's total
exceeds side A's; both are 0 on equal totals, and exactly one is
non-zero on unequal totals. -/
theorem c3_suggestions (cat : Catalog) (yi ti : List String)
    (s s2 : StoredBiases) (r : TradeEvalResult)
    (hr : evaluateTradeLogic cat yi ti s = .ok (r, s2)) :
    (r.their_value < r.your_value →
      r.suggested_additional = ((r.your_value - r.their_value).fdiv 100 + 1) * 100 ∧
      r.suggested_giveback = 0) ∧
    (r.your_value < r.their_value →
      r.suggested_giveback = ((r.their_value - r.your_value).fdiv 100 + 1) * 100 ∧
      r.suggested_additional = 0) ∧
    (r.your_value = r.their_value →
      r.suggested_additional = 0 ∧ r.suggested_giveback = 0) ∧
    (r.your_value ≠ r.their_value →
      (r.suggested_additional ≠ 0 ∧ r.suggested_giveback = 0) ∨
      (r.suggested_additional = 0 ∧ r.suggested_giveback ≠ 0)) := by
  obtain ⟨yd, td, rfl⟩ := evaluateTradeLogic_shape hr
  simp only [mkResult]
  refine ⟨fun h => ?_, fun h => ?_, fun h => ?_, fun h => ?_⟩
  · rw [if_pos h, if_neg (lt_asymm h), (suggestionAux _ _ h).1]
    exact ⟨rfl, rfl⟩
  · rw [if_pos h, if_neg (lt_asymm h), (suggestionAux _ _ h).1]
    exact ⟨rfl, rfl⟩
  · rw [if_neg (by omega), if_neg (by omega)]
    exact ⟨rfl, rfl⟩
  · rcases lt_or_gt_of_ne h with hlt | hgt
    · right
      rw [if_pos hlt, if_neg (lt_asymm hlt), (suggestionAux _ _ hlt).1]
      exact ⟨rfl, (suggestionAux _ _ hlt).2⟩
    · left
      rw [if_pos hgt, if_neg (lt_asymm hgt), (suggestionAux _ _ hgt).1]
      exact ⟨(suggestionAux _ _ hgt).2, rfl⟩

/-- C3 witness: the theorem instantiated on the demo catalog with
`["Alpha"]` against `["Beta"]` (totals 1000 and 2500). -/
theorem c3_witness :
    (demoAB.their_value < demoAB.your_value →
      demoAB.suggested_additional =
        ((demoAB.your_value - demoAB.their_value).fdiv 100 + 1) * 100 ∧
      demoAB.suggested_giveback = 0) ∧
    (demoAB.your_value < demoAB.their_value →
      demoAB.suggested_giveback =
        ((demoAB.their_value - demoAB.your_value).fdiv 100 + 1) * 100 ∧
      demoAB.suggested_additional = 0) ∧
    (demoAB.your_value = demoAB.their_value →
      demoAB.suggested_additional = 0 ∧ demoAB.suggested_giveback = 0) ∧
    (demoAB.your_value ≠ demoAB.their_value →
      (demoAB.suggested_additional ≠ 0 ∧ demoAB.suggested_giveback = 0) ∨
      (demoAB.suggested_additional = 0 ∧ demoAB.suggested_giveback ≠ 0)) :=
  c3_suggestions demoCatalog ["Alpha"] ["Beta"]
    (.table defaultBiases) (.table defaultBiases) demoAB rfl

/-- The one-record catalog of the C4 counterexample: base value 15,
demand `high`, so the default multiplier is the binary64 double of
1.1. -/
def cex4Catalog : Catalog :=
  [ { name := "Fifteen", value := 15, demand := "high" } ]

/-- C4 counterexample: the program does not compute `round(b * m)` of
the exact product under either of the spec's enumerated rounding
rules.  At base value 15 and the stored `high` multiplier (the double
of 1.1, 2476979795053773/2^51), the exact product lies strictly above
16.5, so round-half-to-even and round-half-away-from-zero both give
17; but the binary64 product `15 * 1.1` is exactly 16.5 (the
multiplication rounds DOWN onto the tie), and CPython's
`round(15 * 1.1)` is 16 -- which is what the engine computes. -/
theorem c4_counterexample :
    getItemValueWithBias cex4Catalog "Fifteen" (.table defaultBiases) =
      .ok ({ name := "Fifteen", value := 16, found := true,
             base := some 15, demand := some "high" },
           .table defaultBiases) ∧
    roundMul 15 (mkRat 2476979795053773 2251799813685248) = 17 ∧
    roundMulAway 15 (mkRat 2476979795053773 2251799813685248) = 17 :=
  ⟨rfl, by decide, by decide⟩

/-- Values of the engine's rounding pipeline at the inputs where exact
and binary64 arithmetic part ways, each equal to what CPython's
`round(x * 1.1)` (resp. `round((2^53+1) * 1.0)`) returns: 16, 61, 105
and 2^53 (the int-to-double conversion already loses the +1). -/
lemma pyFloatRound_cross_checks :
    pyFloatRound 15 (mkRat 2476979795053773 2251799813685248) = 16 ∧
    pyFloatRound 55 (mkRat 2476979795053773 2251799813685248) = 61 ∧
    pyFloatRound 95 (mkRat 2476979795053773 2251799813685248) = 105 ∧
    pyFloatRound (2 ^ 53 + 1) 1 = 2 ^ 53 :=
  ⟨by decide, by decide, by decide, by decide⟩

/-- C4 amended: with a readable bias setting, resolving a name that
matches a catalog record (ASCII-case-insensitively) yields a found
valuation whose adjusted value is computed the way Python computes
`round(base_value * multiplier)`: the base value is converted to
binary64, multiplied by the stored multiplier in binary64 (round to
nearest, ties to even), and the resulting double is rounded to the
nearest integer with ties to even; the multiplier defaults to 1.0
when the demand tag has no entry in the table (so unknown tags are
still valued).  The procedure is deterministic, but it rounds the
double product, not the exact one, as the C4 counterexample shows. -/
theorem c4_resolve_found (cat : Catalog) (name : String) (row : ItemRecord)
    (s : StoredBiases) (t : BiasTable)
    (hf : findByNameNocase cat name = some row)
    (ht : effBiases s = some t) :
    getItemValueWithBias cat name s =
      .ok ({ name := name,
             value := pyRound (flQ (flQ (row.value : ℚ) *
               ((biasLookup t row.demand).getD 1))),
             found := true, base := some row.value,
             demand := some row.demand }, stepState s) := by
  obtain ⟨hg, -⟩ := getBiases_eq_of_effBiases ht
  unfold getItemValueWithBias
  rw [hf, hg]
  simp only [pyFloatRound_eq]

/-- C4 witness: the lower-case query `"odd"` matches the record
`"Odd"` whose demand tag `"weird"` is outside the bias table, so the
multiplier falls back to 1. -/
theorem c4_witness :
    getItemValueWithBias demoCatalog "odd" (.table defaultBiases) =
      .ok ({ name := "odd",
             value := pyRound (flQ (flQ ((7 : Int) : ℚ) *
               ((biasLookup defaultBiases "weird").getD 1))),
             found := true, base := some 7,
             demand := some "weird" }, stepState (.table defaultBiases)) :=
  c4_resolve_found demoCatalog "odd" { name := "Odd", value := 7, demand := "weird" }
    (.table defaultBiases) defaultBiases (by decide) rfl

/-- C5: resolving a name with no catalog match returns the not-found
valuation (value 0, demand none) without touching the settings state
and without an error, and an evaluation whose side A contains such a
name still succeeds, counts the name's value as 0 in the side A total
and lists the name in `unfound`. -/
theorem c5_not_found (cat : Catalog) (name : String) (s s2 : StoredBiases)
    (t : BiasTable) (pre post ti : List String) (r : TradeEvalResult)
    (hf : findByNameNocase cat name = none)
    (ht : effBiases s = some t)
    (hr : evaluateTradeLogic cat (pre ++ name :: post) ti s = .ok (r, s2)) :
    getItemValueWithBias cat name s =
      .ok ({ name := name, value := 0, found := false,
             base := none, demand := none }, s) ∧
    name ∈ r.unfound ∧
    r.your_value = sumValues ((pre ++ post).map (resolveWith cat t)) := by
  have h1 : getItemValueWithBias cat name s =
      .ok ({ name := name, value := 0, found := false,
             base := none, demand := none }, s) := by
    unfold getItemValueWithBias
    rw [hf]
  obtain ⟨s3, he, -⟩ := evaluateTradeLogic_eq_of_effBiases cat (pre ++ name :: post) ti ht
  rw [he] at hr
  simp only [Except.ok.injEq, Prod.mk.injEq] at hr
  obtain ⟨hrr, -⟩ := hr
  subst hrr
  refine ⟨h1, ?_, ?_⟩
  · simp only [mkResult, unfoundNames_map_resolveWith]
    refine List.mem_append_left _ (List.mem_filter.mpr ⟨?_, ?_⟩)
    · exact List.mem_append_right _ (List.mem_cons_self _ _)
    · simp [hf]
  · simp only [mkResult, List.map_append, List.map_cons, sumValues_append,
      resolveWith_of_none t hf]
    simp [sumValues]

/-- C5 witness: `"Ghost"` is not in the demo catalog; it resolves to
the not-found valuation and the evaluation of
`["Alpha", "Ghost"]` against `["Beta"]` lists it in `unfound` while
side A's total is that of `["Alpha"]` alone. -/
theorem c5_witness :
    getItemValueWithBias demoCatalog "Ghost" (.table defaultBiases) =
      .ok ({ name := "Ghost", value := 0, found := false,
             base := none, demand := none }, .table defaultBiases) ∧
    "Ghost" ∈ demoGhost.unfound ∧
    demoGhost.your_value =
      sumValues ((["Alpha"] ++ ([] : List String)).map
        (resolveWith demoCatalog defaultBiases)) :=
  c5_not_found demoCatalog "Ghost" (.table defaultBiases) (.table defaultBiases)
    defaultBiases ["Alpha"] [] ["Beta"] demoGhost (by decide) rfl rfl

/-- The one-record catalog of the C6 counterexample. -/
def cexCatalog : Catalog :=
  [ { name := "Foo", value := 100, demand := "normal" } ]

/-- C6 counterexample: when no bias table is persisted and the name is
found, `get_item_value_with_bias` persists the default bias table (its
internal `get_biases` call writes the `biases` setting), so the
settings state is NOT left unchanged: it goes from `absent` to
`table defaultBiases`. -/
theorem c6_counterexample :
    getItemValueWithBias cexCatalog "Foo" .absent =
      .ok ({ name := "Foo", value := 100, found := true,
             base := some 100, demand := some "normal" },
           .table defaultBiases) ∧
    StoredBiases.table defaultBiases ≠ StoredBiases.absent :=
  ⟨rfl, by decide⟩

/-- C6 amended: the resolver never touches the catalog (it only reads
it); when a bias table is already persisted it leaves the settings
state unchanged and its result is the pure function `resolveWith` of
the name, the catalog and that table; when no table is persisted its
only side effect is that it may persist the default table (it does so
exactly when the name is found), and its result is the same pure
function applied to the default table. -/
theorem c6_resolver_purity_amended (cat : Catalog) (name : String) (t : BiasTable) :
    getItemValueWithBias cat name (.table t) =
      .ok (resolveWith cat t name, .table t) ∧
    (∃ s1, getItemValueWithBias cat name .absent =
        .ok (resolveWith cat defaultBiases name, s1) ∧
      (s1 = .absent ∨ s1 = .table defaultBiases) ∧
      effBiases s1 = some defaultBiases) := by
  refine ⟨getItemValueWithBias_table cat name t, ?_⟩
  unfold getItemValueWithBias resolveWith
  cases findByNameNocase cat name with
  | none => exact ⟨.absent, rfl, .inl rfl, rfl⟩
  | some r => exact ⟨.table defaultBiases, rfl, .inr rfl, rfl⟩

lemma map_name_resolveWith (cat : Catalog) (t : BiasTable) (ns : List String) :
    (ns.map (resolveWith cat t)).map (fun d => d.name) = ns := by
  induction ns with
  | nil => rfl
  | cons n ns ih => simp [resolveWith_name, ih]

/-- C7: with a readable bias setting every evaluation succeeds with
one detail record per input name, in input order, carrying the input
name (duplicates resolved independently, each by the same pure
resolver); each side's total is the sum of that side's adjusted
values; `unfound` is exactly the unmatched input names in encounter
order, all of side A's before all of side B's. -/
theorem c7_details_and_unresolved (cat : Catalog) (yi ti : List String)
    (s s2 : StoredBiases) (t : BiasTable) (r : TradeEvalResult)
    (ht : effBiases s = some t)
    (hr : evaluateTradeLogic cat yi ti s = .ok (r, s2)) :
    r.your_details = yi.map (resolveWith cat t) ∧
    r.their_details = ti.map (resolveWith cat t) ∧
    r.your_details.map (fun d => d.name) = yi ∧
    r.their_details.map (fun d => d.name) = ti ∧
    r.your_value = sumValues r.your_details ∧
    r.their_value = sumValues r.their_details ∧
    r.unfound = yi.filter (fun n => (findByNameNocase cat n).isNone) ++
      ti.filter (fun n => (findByNameNocase cat n).isNone) := by
  obtain ⟨s3, he, -⟩ := evaluateTradeLogic_eq_of_effBiases cat yi ti ht
  rw [he] at hr
  simp only [Except.ok.injEq, Prod.mk.injEq] at hr
  obtain ⟨hrr, -⟩ := hr
  subst hrr
  refine ⟨rfl, rfl, ?_, ?_, rfl, rfl, ?_⟩
  · exact map_name_resolveWith cat t yi
  · exact map_name_resolveWith cat t ti
  · simp only [mkResult, unfoundNames_map_resolveWith]

/-- C7 witness: the theorem instantiated on the evaluation of
`["Alpha", "Ghost"]` against `["Beta"]` over the demo catalog. -/
theorem c7_witness :
    demoGhost.your_details =
      ["Alpha", "Ghost"].map (resolveWith demoCatalog defaultBiases) ∧
    demoGhost.their_details =
      ["Beta"].map (resolveWith demoCatalog defaultBiases) ∧
    demoGhost.your_details.map (fun d => d.name) = ["Alpha", "Ghost"] ∧
    demoGhost.their_details.map (fun d => d.name) = ["Beta"] ∧
    demoGhost.your_value = sumValues demoGhost.your_details ∧
    demoGhost.their_value = sumValues demoGhost.their_details ∧
    demoGhost.unfound =
      ["Alpha", "Ghost"].filter
        (fun n => (findByNameNocase demoCatalog n).isNone) ++
      ["Beta"].filter (fun n => (findByNameNocase demoCatalog n).isNone) :=
  c7_details_and_unresolved demoCatalog ["Alpha", "Ghost"] ["Beta"]
    (.table defaultBiases) (.table defaultBiases) defaultBiases demoGhost rfl rfl

/-- C8: `get_biases` returns a persisted table unchanged; with no
persisted table it persists and returns the fixed default table; and
it is idempotent: whatever a successful call returned, an immediately
repeated call from the resulting settings state returns the same
mapping and the same state, so the first call's persistence side
effect does not alter the second call's result. -/
theorem c8_get_biases_default_and_idempotent (t0 : BiasTable)
    (s s1 : StoredBiases) (t : BiasTable)
    (h : getBiases s = .ok (t, s1)) :
    getBiases (.table t0) = .ok (t0, .table t0) ∧
    getBiases .absent = .ok (defaultBiases, .table defaultBiases) ∧
    getBiases s1 = .ok (t, s1) := by
  refine ⟨rfl, rfl, ?_⟩
  cases s with
  | absent =>
      simp only [getBiases, Except.ok.injEq, Prod.mk.injEq] at h
      obtain ⟨rfl, rfl⟩ := h
      rfl
  | empty =>
      simp only [getBiases, Except.ok.injEq, Prod.mk.injEq] at h
      obtain ⟨rfl, rfl⟩ := h
      rfl
  | table tt =>
      simp only [getBiases, Except.ok.injEq, Prod.mk.injEq] at h
      obtain ⟨rfl, rfl⟩ := h
      rfl
  | malformed => exact absurd h (by simp [getBiases])

/-- C8 witness: the theorem instantiated on the initially-empty
settings state, whose `get_biases` call persists the defaults. -/
theorem c8_witness :
    getBiases (.table defaultBiases) = .ok (defaultBiases, .table defaultBiases) ∧
    getBiases .absent = .ok (defaultBiases, .table defaultBiases) ∧
    getBiases (.table defaultBiases) = .ok (defaultBiases, .table defaultBiases) :=
  c8_get_biases_default_and_idempotent defaultBiases .absent
    (.table defaultBiases) defaultBiases rfl

/-- C9 counterexample: a stored EMPTY string is unparseable
(`json.loads` rejects it), yet `get_biases` does not fail on it:
`if biases_str:` is false for the empty string, so the code takes the
default branch, silently persisting and returning the default table
-- the fallback the claim says cannot happen once a value was
persisted. -/
theorem c9_counterexample :
    getBiases .empty = .ok (defaultBiases, .table defaultBiases) :=
  rfl

/-- C9 amended: when the persisted bias table is a NON-EMPTY string
that does not parse, `get_biases` raises (the `json.loads` error
propagates to the caller) and never returns any table; but a stored
empty string, although unparseable, is treated as absent by the
code's truthiness test and silently replaced with the persisted
default table. -/
theorem c9_malformed_biases_fatal :
    (getBiases .malformed = .error "json.loads: malformed biases setting" ∧
     ∀ (t : BiasTable) (s1 : StoredBiases), getBiases .malformed ≠ .ok (t, s1)) ∧
    getBiases .empty = .ok (defaultBiases, .table defaultBiases) :=
  ⟨⟨rfl, fun t s1 h => by exact absurd h (by simp [getBiases])⟩, rfl⟩

/-- C10: with a readable bias setting, evaluating the swapped pair of
name lists exchanges the two totals, negates the difference, and
exchanges the two suggestions. -/
theorem c10_swap_symmetry (cat : Catalog) (A B : List String)
    (s sa sb : StoredBiases) (t : BiasTable) (r1 r2 : TradeEvalResult)
    (ht : effBiases s = some t)
    (h1 : evaluateTradeLogic cat A B s = .ok (r1, sa))
    (h2 : evaluateTradeLogic cat B A s = .ok (r2, sb)) :
    r2.your_value = r1.their_value ∧
    r2.their_value = r1.your_value ∧
    r2.diff = -r1.diff ∧
    r2.suggested_additional = r1.suggested_giveback ∧
    r2.suggested_giveback = r1.suggested_additional := by
  obtain ⟨s3, he1, -⟩ := evaluateTradeLogic_eq_of_effBiases cat A B ht
  obtain ⟨s4, he2, -⟩ := evaluateTradeLogic_eq_of_effBiases cat B A ht
  rw [he1] at h1
  rw [he2] at h2
  simp only [Except.ok.injEq, Prod.mk.injEq] at h1 h2
  obtain ⟨hr1, -⟩ := h1
  obtain ⟨hr2, -⟩ := h2
  subst hr1
  subst hr2
  refine ⟨rfl, rfl, ?_, rfl, rfl⟩
  simp only [mkResult]
  ring

/-- C10 witness: swapping `["Alpha"]` and `["Beta"]` on the demo
catalog exchanges totals and suggestions and negates the
difference. -/
theorem c10_witness :
    demoBA.your_value = demoAB.their_value ∧
    demoBA.their_value = demoAB.your_value ∧
    demoBA.diff = -demoAB.diff ∧
    demoBA.suggested_additional = demoAB.suggested_giveback ∧
    demoBA.suggested_giveback = demoAB.suggested_additional :=
  c10_swap_symmetry demoCatalog ["Alpha"] ["Beta"]
    (.table defaultBiases) (.table defaultBiases) (.table defaultBiases)
    defaultBiases demoAB demoBA rfl rfl rfl
